import Mathlib

/-!
Verification of the Shamir secret-sharing polynomial layer (share/poly.go) and the
VSS protocol layer (vss.go) of the DeDiS crypto repository.

The abstract prime-order group is shallowly embedded as follows: the scalar field
is an arbitrary field `K` with decidable equality; the group of prime order q is a
free rank-1 module over its scalar field, so group elements are also represented by
`K`, with the standard base point represented by `1`, the identity (`Null`) by `0`,
point addition by `+` and scalar multiplication `Mul` by field multiplication.
Hash-derived quantities (the secondary generator `H`, session identifiers, message
hashes, Schnorr signatures) are kept abstract as parameters, collected in the
`CryptoPrim` structure.  Byte strings that are only compared for equality
(session ids, signatures) are represented by `Nat` tokens.

Go slices become `List`s, Go `int` becomes `Int` where a negativity check exists in
the source (share indices, the dealer threshold argument) and `Nat` elsewhere,
`(T, error)` results become `Except String T`, and functions that mutate their
receiver and return an `error` become functions returning the updated state paired
with an `Option String`.
-/

namespace DedisCrypto

variable {K : Type} [Field K] [DecidableEq K]

/-- PriShare represents an individual private share v = p(i).  The index is `Int`
because the Go field has type `int` and the VSS layer checks it for negativity. -/
structure PriShare (K : Type) where
  i : Int
  v : K
deriving DecidableEq

/-- PriPoly represents a secret sharing polynomial (its list of coefficients,
constant term first).  The group handle of the Go struct is implicit in `K`. -/
structure PriPoly (K : Type) where
  coeffs : List K
deriving DecidableEq

/-- NewPriPoly with an explicitly given secret `s`: the coefficient list is the
secret followed by the `t - 1` scalars drawn from the randomness stream.  (The
`s == nil` branch of the source, where the secret itself is drawn from the stream,
is modelled by choosing `s` arbitrarily.) -/
def NewPriPoly (s : K) (rand : List K) : PriPoly K :=
  ⟨s :: rand⟩

/-- Threshold returns the secret sharing threshold (the coefficient count). -/
def PriPoly.Threshold (p : PriPoly K) : Nat :=
  p.coeffs.length

/-- GetSecret returns the shared secret p(0), i.e. the constant term. -/
def PriPoly.GetSecret (p : PriPoly K) : K :=
  p.coeffs.headD 0

/-- Horner evaluation used by `PriPoly.Eval` and `PubPoly.Eval`: the source loops
from the highest coefficient down doing `sv = sv*x + coeffs[j]`. -/
def horner (coeffs : List K) (x : K) : K :=
  coeffs.foldr (fun c acc => acc * x + c) 0

/-- Eval computes the private share p(i); the x-coordinate of share `i` is `1 + i`. -/
def PriPoly.Eval (p : PriPoly K) (i : Int) : PriShare K :=
  ⟨i, horner p.coeffs ((1 + i : Int) : K)⟩

/-- Shares creates the list of n private shares p(1),...,p(n). -/
def PriPoly.Shares (p : PriPoly K) (n : Nat) : List (PriShare K) :=
  (List.range n).map (fun i => p.Eval (i : Int))

/-- A Go `abstract.Point` value held in an interface variable, as used for the base
field `b` of `PubPoly`: `none` models Go `nil` (meaning the standard base); `some
(id, val)` models a reference to a point object, where `id` is the allocation
identity and `val` the group element held by the object.  Go `==` / `!=` on two
such interface values compares allocation identities, not group elements. -/
abbrev PointRef (K : Type) := Option (Nat × K)

/-- Go equality of two `abstract.Point` interface values (`p.b != q.b` in the
source): both nil, or the same object. -/
def ptrEq : PointRef K → PointRef K → Bool
  | none, none => true
  | some (i, _), some (j, _) => i == j
  | _, _ => false

/-- The group element referred to by a base-point reference; `nil` means the
standard base, whose representation is `1`. -/
def refVal : PointRef K → K
  | none => 1
  | some (_, v) => v

/-- Point().Mul(b, s): scalar-multiply the referenced base (standard base when
`b` is nil) by `s`. -/
def pointMul (b : PointRef K) (s : K) : K :=
  s * refVal b

/-- PubPoly represents a public commitment polynomial: a base point reference and
the commitments to the coefficients. -/
structure PubPoly (K : Type) where
  b : PointRef K
  commits : List K

/-- PubShare represents an individual public share V = p(i). -/
structure PubShare (K : Type) where
  i : Int
  v : K
deriving DecidableEq

/-- Commit creates the public commitment polynomial for base point `b`
(standard base when `b` is nil): commits[k] = coeffs[k]*B. -/
def PriPoly.Commit (p : PriPoly K) (b : PointRef K) : PubPoly K :=
  ⟨b, p.coeffs.map (fun c => pointMul b c)⟩

/-- Threshold of a public commitment polynomial. -/
def PubPoly.Threshold (p : PubPoly K) : Nat :=
  p.commits.length

/-- Eval computes the public share p(i), by Horner evaluation in the group. -/
def PubPoly.Eval (p : PubPoly K) (i : Int) : PubShare K :=
  ⟨i, horner p.commits ((1 + i : Int) : K)⟩

/-- Add computes the component-wise sum of two public commitment polynomials.  The
source first compares the groups (always equal here), then the base-point interface
values with Go `!=` (allocation identity), then the coefficient counts. -/
def PubPoly.Add (p q : PubPoly K) : Except String (PubPoly K) :=
  if ptrEq p.b q.b = false then
    Except.error "Non-matching base points"
  else if p.Threshold ≠ q.Threshold then
    Except.error "Non-matching number of coefficients"
  else
    Except.ok ⟨p.b, List.zipWith (· + ·) p.commits q.commits⟩

/-- Check a private share against a public commitment polynomial:
`Eval(s.I).V == Mul(b, s.V)`. -/
def PubPoly.Check (p : PubPoly K) (s : PriShare K) : Bool :=
  decide ((p.Eval s.i).v = pointMul p.b s.v)

/-- The x-coordinate the source assigns to the share stored at list position `i`:
`SetInt64(1 + int64(i))`. -/
def xCoordOf (i : Nat) : K :=
  ((i + 1 : Nat) : K)

/-- The loop body of `xCoords`: walks the remaining positions, carrying the count
`c` of collected shares and the break flag (the source leaves the remaining array
entries nil once it has collected `t` shares and broken out of the loop).  Returns
the x-coordinate array and the final count. -/
def xCoordsLoop (t : Nat) (isNotNil : Nat → Bool) :
    List Nat → Nat → Bool → List (Option K) × Nat
  | [], c, _ => ([], c)
  | _ :: rest, c, true =>
    let res := xCoordsLoop t isNotNil rest c true
    (none :: res.1, res.2)
  | i :: rest, c, false =>
    if isNotNil i then
      let res := xCoordsLoop t isNotNil rest (c + 1) (decide (t ≤ c + 1))
      (some (xCoordOf i) :: res.1, res.2)
    else
      let res := xCoordsLoop t isNotNil rest c false
      (none :: res.1, res.2)

/-- xCoords creates the array of x-coordinates for Lagrange interpolation: exactly
the first `t` positions satisfying `isNotNil` receive their x-coordinate, the rest
are nil; fewer than `t` such positions is an error. -/
def xCoords (t n : Nat) (isNotNil : Nat → Bool) : Except String (List (Option K)) :=
  let res := xCoordsLoop t isNotNil (List.range n) 0 false
  if res.2 < t then Except.error "Not enough shares to reconstruct secret"
  else Except.ok res.1

/-- The share stored at position `i` of the share slice (`nil` beyond the end). -/
def shareAt (shares : List (Option (PriShare K))) (i : Nat) : Option (PriShare K) :=
  shares.getD i none

/-- The source's `isNotNil` closure: `i < len(shares) && shares[i] != nil`. -/
def isNotNilAt (shares : List (Option (PriShare K))) (i : Nat) : Bool :=
  (shareAt shares i).isSome

/-- The value `shares[i].V` read by the interpolation loop (only ever read at
positions whose x-coordinate is non-nil, where the share exists). -/
def valAt (shares : List (Option (PriShare K))) (i : Nat) : K :=
  match shareAt shares i with
  | some sh => sh.v
  | none => 0

/-- One step of the numerator accumulation (`num.Mul(num, x[j])` when `j` is a
different non-nil position, otherwise `continue`). -/
def numStep (x : List (Option K)) (i : Nat) (acc : K) (j : Nat) : K :=
  if j = i then acc
  else
    match x.getD j none with
    | none => acc
    | some xj => acc * xj

/-- One step of the denominator accumulation
(`den.Mul(den, tmp.Sub(x[j], x[i]))` when `j` is a different non-nil position,
otherwise `continue`). -/
def denStep (x : List (Option K)) (i : Nat) (xi : K) (acc : K) (j : Nat) : K :=
  if j = i then acc
  else
    match x.getD j none with
    | none => acc
    | some xj => acc * (xj - xi)

/-- The numerator of the interpolation loop for basis index `i`: starts at
`shares[i].V` and multiplies by `x[j]` for every other non-nil position `j`. -/
def numAcc (x : List (Option K)) (i : Nat) (start : K) : K :=
  (List.range x.length).foldl (numStep x i) start

/-- The denominator of the interpolation loop for basis index `i`: starts at one
and multiplies by `x[j] - x[i]` for every other non-nil position `j`.  (The
source updates `num` and `den` in the same pass; the two accumulators are
independent.) -/
def denAcc (x : List (Option K)) (i : Nat) (xi : K) : K :=
  (List.range x.length).foldl (denStep x i xi) 1

/-- One step of the outer interpolation loop: skip nil positions, otherwise add
`num/den` for this basis index. -/
def recoverStep (shares : List (Option (PriShare K))) (x : List (Option K))
    (acc : K) (i : Nat) : K :=
  match x.getD i none with
  | none => acc
  | some xi => acc + numAcc x i (valAt shares i) / denAcc x i xi

/-- RecoverSecret reconstructs the shared secret p(0) by Lagrange interpolation
at x = 0 from the first `t` non-nil shares. -/
def RecoverSecret (shares : List (Option (PriShare K))) (t : Nat) : Except String K :=
  match xCoords t shares.length (isNotNilAt shares) with
  | Except.error e => Except.error e
  | Except.ok x =>
    Except.ok ((List.range x.length).foldl (recoverStep shares x) 0)

/-- The positions `xCoords` selects: the first `t` positions (in increasing
order) satisfying `isNotNil`. -/
def selOf (t n : Nat) (isNotNil : Nat → Bool) : List Nat :=
  ((List.range n).filter isNotNil).take t

/-- The x-coordinate array `xCoords` produces when it succeeds: the selected
positions hold their x-coordinate, all others are nil. -/
def xListOf (t n : Nat) (isNotNil : Nat → Bool) : List (Option K) :=
  (List.range n).map fun i =>
    if i ∈ selOf t n isNotNil then some (xCoordOf i) else none

/-- The positions of the shares `RecoverSecret shares t` interpolates from: the
first `t` non-nil entries of the share list, in index order. -/
def selIndices (t : Nat) (shares : List (Option (PriShare K))) : List Nat :=
  selOf t shares.length (isNotNilAt shares)

/-- The Lagrange interpolation sum at x = 0 over a set of positions `sel` with
values `val`, in the numerator/denominator form the source computes:
`sum of (val i * prod of x_j) / (prod of (x_j - x_i))` over `i` in `sel`,
with `j` ranging over the other selected positions. -/
def lagrangeInterp0 (sel : List Nat) (val : Nat → K) : K :=
  ∑ i ∈ sel.toFinset,
    (val i * ∏ j ∈ sel.toFinset.erase i, xCoordOf (K := K) j) /
      ∏ j ∈ sel.toFinset.erase i, (xCoordOf j - xCoordOf i)

/-- The polynomial with the given coefficient list (constant term first); the
mathematical object the coefficient slices of the source represent. -/
noncomputable def toPoly : List K → Polynomial K
  | [] => 0
  | c :: r => Polynomial.C c + Polynomial.X * toPoly r

/-! The VSS protocol layer (vss.go).  Hash-derived values are abstract. -/

/-- The abstract cryptographic primitives the VSS layer is parameterized by: the
derivation of the secondary generator `H` from the verifier set, the session-id
hash `H2(dealerPub, verifiers, commitments, t)`, the hash of a Response packet,
and Schnorr signing/verification (signatures and hashes are `Nat` tokens). -/
structure CryptoPrim (K : Type) where
  deriveH : List K → K
  sessionID : K → List K → List K → Nat → Nat
  respHash : Nat → Nat → Bool → Nat
  schnorrSign : K → Nat → Nat
  schnorrVerify : K → Nat → Nat → Bool

/-- Deal encapsulates the verifiable secret share sent by the dealer to a
verifier (session id modelled as a `Nat` token, `T` is the Go `uint32`). -/
structure Deal (K : Type) where
  sessionID : Nat
  secShare : PriShare K
  rndShare : PriShare K
  t : Nat
  commitments : List K
deriving DecidableEq

/-- Response holds one verifier's validation or refusal of a Deal. -/
structure Response where
  sessionID : Nat
  index : Nat
  approved : Bool
  signature : Nat
deriving DecidableEq

/-- Justification is broadcast by the Dealer in response to a complaint and
contains the disputed deal in cleartext. -/
structure Justification (K : Type) where
  sessionID : Nat
  index : Nat
  deal : Deal K
  signature : Nat
deriving DecidableEq

/-- validT: `t >= 2 && t <= len(verifiers) && int(uint32(t)) == t` (the last
conjunct says the nonnegative `t` is unchanged by truncation to 32 bits). -/
def validT (t : Int) (verifiers : List K) : Bool :=
  decide (2 ≤ t) && decide (t ≤ (verifiers.length : Int)) && decide (t % 2 ^ 32 = t)

/-- findPub returns the verifier public key at `idx`, or nothing when the index
is out of bounds. -/
def findPub (verifiers : List K) (idx : Nat) : Option K :=
  verifiers[idx]?

/-- The aggregator state shared by Dealer and Verifier.  The Go `responses` map
(index to Response) is modelled as a list with at most one entry per index (the
insertion function enforces uniqueness exactly as the source does). -/
structure Aggregator (K : Type) where
  dealer : K
  verifiers : List K
  commits : List K
  responses : List Response
  sid : Nat
  deal : Option (Deal K)
  t : Nat
  badDealer : Bool
deriving DecidableEq

/-- newAggregator: fresh state with no deal, no responses, badDealer unset. -/
def newAggregator (dealer : K) (verifiers commitments : List K) (t : Nat)
    (sid : Nat) : Aggregator K :=
  { dealer := dealer, verifiers := verifiers, commits := commitments,
    responses := [], sid := sid, deal := none, t := t, badDealer := false }

/-- Lookup of the stored response for a given index (Go map access). -/
def findResp (rs : List Response) (i : Nat) : Option Response :=
  rs.find? (fun r => r.index == i)

/-- The error returned when a second deal reaches the same verifier. -/
def errDealAlreadyProcessed : String := "vss: verifier already received a deal"

/-- VerifyDeal analyzes a deal against the aggregator state: it records a first
deal (adopting its commitments and session id), validates `t`, the session id,
the share indices, and checks `fi*B + gi*H` against the evaluation of the
commitment polynomial.  Returns the updated state and the error, if any. -/
def VerifyDeal (cp : CryptoPrim K) (a : Aggregator K) (d : Deal K)
    (inclusion : Bool) : Aggregator K × Option String :=
  if a.deal.isSome && inclusion then (a, some errDealAlreadyProcessed)
  else
    let a1 :=
      if a.deal.isNone then
        { a with commits := d.commitments, sid := d.sessionID, deal := some d }
      else a
    if validT (d.t : Int) a1.verifiers = false then
      (a1, some "vss: invalid t received in Deal")
    else if a1.sid ≠ d.sessionID then
      (a1, some "vss: find different sessionIDs from Deal")
    else if d.secShare.i ≠ d.rndShare.i then
      (a1, some "vss: not the same index for f and g share in Deal")
    else if d.secShare.i < 0 ∨ (a1.verifiers.length : Int) ≤ d.secShare.i then
      (a1, some "vss: index out of bounds in Deal")
    else
      let fig := d.secShare.v * 1
      let H := cp.deriveH a1.verifiers
      let gih := d.rndShare.v * H
      let ci := fig + gih
      let commitPoly : PubPoly K := ⟨none, d.commitments⟩
      let pubShare := commitPoly.Eval d.secShare.i
      if ci ≠ pubShare.v then
        (a1, some "vss: share does not verify against commitments in Deal")
      else (a1, none)

/-- addResponse stores a response after checking the index is in bounds and not
yet present; on error the state is returned unchanged. -/
def addResponse (a : Aggregator K) (r : Response) : Aggregator K × Option String :=
  if (findPub a.verifiers r.index).isNone then
    (a, some "vss: index out of bounds in Complaint")
  else if (findResp a.responses r.index).isSome then
    (a, some "vss: already existing response from same origin")
  else ({ a with responses := a.responses ++ [r] }, none)

/-- verifyResponse checks the session id, the index and the Schnorr signature of
a response, then stores it via `addResponse`. -/
def verifyResponse (cp : CryptoPrim K) (a : Aggregator K) (r : Response) :
    Aggregator K × Option String :=
  if r.sessionID ≠ a.sid then
    (a, some "vss: receiving inconsistent sessionID in response")
  else
    match findPub a.verifiers r.index with
    | none => (a, some "vss: index out of bounds in response")
    | some pub =>
      if cp.schnorrVerify pub (cp.respHash r.sessionID r.index r.approved)
          r.signature = false then
        (a, some "vss: invalid signature in response")
      else addResponse a r

/-- Flip the stored response at index `i` to approved (the source mutates the
stored Response object through the map). -/
def setApproved (rs : List Response) (i : Nat) : List Response :=
  rs.map (fun r => if r.index == i then { r with approved := true } else r)

/-- verifyJustification requires a stored complaint at the justification's index,
re-verifies the republished deal and, when that fails, latches `badDealer`;
otherwise it flips the stored complaint to an approval. -/
def verifyJustification (cp : CryptoPrim K) (a : Aggregator K)
    (j : Justification K) : Aggregator K × Option String :=
  if (findPub a.verifiers j.index).isNone then
    (a, some "vss: index out of bounds in justification")
  else
    match findResp a.responses j.index with
    | none => (a, some "vss: no complaints received for this justification")
    | some r =>
      if r.approved then (a, some "vss: justification received for an approval")
      else
        match VerifyDeal cp a j.deal false with
        | (a2, some e) => ({ a2 with badDealer := true }, some e)
        | (a2, none) => ({ a2 with responses := setApproved a2.responses j.index }, none)

/-- EnoughApprovals: at least `t` stored responses are approvals. -/
def EnoughApprovals (a : Aggregator K) : Bool :=
  a.t ≤ a.responses.countP (fun r => r.approved)

/-- DealCertified on a possibly absent aggregator (the Go method has a nil
receiver guard): enough approvals, fewer than `t` complaints, and no bad
dealer. -/
def DealCertified (a : Option (Aggregator K)) : Bool :=
  match a with
  | none => false
  | some a =>
    let comps := a.responses.countP (fun r => !r.approved)
    let tooMuchComplaints := decide (a.t ≤ comps) || a.badDealer
    EnoughApprovals a && !tooMuchComplaints

/-- The state of a Verifier: its key material, its index in the verifier set and
the lazily created aggregator. -/
structure Verifier (K : Type) where
  longterm : K
  pub : K
  dealer : K
  index : Nat
  verifiers : List K
  agg : Option (Aggregator K)

/-- Verifier.DealCertified delegates to the aggregator method (whose nil-receiver
guard returns false when no deal has been processed yet). -/
def Verifier.DealCertified (v : Verifier K) : Bool :=
  DedisCrypto.DealCertified v.agg

/-- ProcessEncryptedDeal after the decryption and signature verification of the
encrypted deal have succeeded (those steps belong to the confidential channel and
can only fail into an early error return): checks the share index, recomputes the
session id, creates the aggregator on first use with the deal's own session id,
verifies the deal, and stores and returns the signed response. -/
def processDecryptedDeal (cp : CryptoPrim K) (v : Verifier K) (d : Deal K) :
    Verifier K × Except String Response :=
  if d.secShare.i ≠ (v.index : Int) then
    (v, Except.error "vss: verifier got wrong index from deal")
  else
    let t := d.t
    let sid := cp.sessionID v.dealer v.verifiers d.commitments t
    let agg :=
      match v.agg with
      | none => newAggregator v.dealer v.verifiers d.commitments t d.sessionID
      | some a => a
    let va := VerifyDeal cp agg d true
    let approved := va.2.isNone
    if va.2 = some errDealAlreadyProcessed then
      ({ v with agg := some va.1 }, Except.error errDealAlreadyProcessed)
    else
      let r : Response :=
        { sessionID := sid, index := v.index, approved := approved,
          signature := cp.schnorrSign v.longterm (cp.respHash sid v.index approved) }
      match addResponse va.1 r with
      | (agg2, some e) => ({ v with agg := some agg2 }, Except.error e)
      | (agg2, none) => ({ v with agg := some agg2 }, Except.ok r)

/-- The three aggregator-mutating verifier entry points, as a step alphabet for
reachability statements. -/
inductive VssOp (K : Type) where
  | procDeal (d : Deal K)
  | procResp (r : Response)
  | procJust (j : Justification K)

/-- One verifier step.  `ProcessResponse` and `ProcessJustification` go straight
to the aggregator; with no aggregator present the Go code would dereference nil,
so the state is left unchanged (such calls are outside every claim considered). -/
def vstep (cp : CryptoPrim K) (v : Verifier K) : VssOp K → Verifier K
  | VssOp.procDeal d => (processDecryptedDeal cp v d).1
  | VssOp.procResp r =>
    match v.agg with
    | none => v
    | some a => { v with agg := some (verifyResponse cp a r).1 }
  | VssOp.procJust j =>
    match v.agg with
    | none => v
    | some a => { v with agg := some (verifyJustification cp a j).1 }

/-- Run a list of verifier steps. -/
def vrun (cp : CryptoPrim K) (v : Verifier K) (ops : List (VssOp K)) : Verifier K :=
  ops.foldl (vstep cp) v

/-- The part of the Dealer state that NewDealer constructs. -/
structure DealerState (K : Type) where
  pub : K
  secretCommits : List K
  t : Nat
  sessionID : Nat
  deals : List (Deal K)
  agg : Aggregator K

/-- NewDealer: validates `t`, derives `H`, builds the sharing polynomial `f`
(secret plus `t-1` random coefficients) and the blinding polynomial `g` (whose
`t` coefficients `gCoeffs` are all drawn from the randomness stream), commits
`F = f.Commit(Base)` and `G = g.Commit(H)` — two distinct freshly allocated base
point objects, modelled by the allocation identities 0 and 1 — computes
`C = F.Add(G)`, the session id, the aggregator and the per-verifier deals. -/
def NewDealer (cp : CryptoPrim K) (longterm secret : K) (verifiers : List K)
    (fRand gCoeffs : List K) (t : Int) : Except String (DealerState K) :=
  if validT t verifiers = false then Except.error "dealer: t invalid"
  else
    let H := cp.deriveH verifiers
    let f : PriPoly K := NewPriPoly secret fRand
    let g : PriPoly K := ⟨gCoeffs⟩
    let pub := longterm * 1
    let F := f.Commit (some (0, (1 : K)))
    let secretCommits := F.commits
    let G := g.Commit (some (1, H))
    match F.Add G with
    | Except.error e => Except.error e
    | Except.ok C =>
      let commitments := C.commits
      let sid := cp.sessionID pub verifiers commitments t.toNat
      let deals := (List.range verifiers.length).map (fun i =>
        ({ sessionID := sid, secShare := f.Eval (i : Int),
           rndShare := g.Eval (i : Int), t := t.toNat,
           commitments := commitments } : Deal K))
      Except.ok
        { pub := pub, secretCommits := secretCommits, t := t.toNat,
          sessionID := sid, deals := deals,
          agg := newAggregator pub verifiers commitments t.toNat sid }

/-! Concrete instances used by the closed witness statements: the scalar field
of a small prime-order group. -/

deriving instance DecidableEq for Except

instance : Fact (Nat.Prime 11) := ⟨by norm_num⟩

/-- A small concrete scalar field for witnesses: the field of integers
modulo the prime 11. -/
abbrev Zq : Type := ZMod 11

/-- Concrete abstract-primitive instance for witnesses and counterexamples:
the derived generator is 2, every hash is the constant 0, signatures always
verify. -/
def cexCP : CryptoPrim Zq :=
  { deriveH := fun _ => 2, sessionID := fun _ _ _ _ => 0,
    respHash := fun _ _ _ => 0, schnorrSign := fun _ _ => 0,
    schnorrVerify := fun _ _ _ => true }

/-- A concrete deal consistent with the commitments `[1, 2]` under the derived
generator 2 (the share equation is 1*1 + 1*2 = 3 = eval of [1, 2] at x = 1),
whose SessionID field is the token 1. -/
def cexDeal : Deal Zq :=
  { sessionID := 1, secShare := ⟨0, 1⟩, rndShare := ⟨0, 1⟩, t := 2,
    commitments := [1, 2] }

/-- A concrete deal that fails verification (its threshold field is 0). -/
def cexBadDeal : Deal Zq :=
  { sessionID := 1, secShare := ⟨0, 5⟩, rndShare := ⟨0, 1⟩, t := 0,
    commitments := [1, 2] }

/-- A concrete verifier at index 0 of a two-verifier set, with no aggregator. -/
def cexVerifier : Verifier Zq :=
  { longterm := 3, pub := 3, dealer := 7, index := 0, verifiers := [3, 4],
    agg := none }

/-- A concrete aggregator holding one complaint at index 0. -/
def cexAgg : Aggregator Zq :=
  { dealer := 7, verifiers := [3, 4], commits := [1, 2],
    responses := [{ sessionID := 1, index := 0, approved := false, signature := 0 }],
    sid := 1, deal := none, t := 2, badDealer := false }

/-- A justification for the complaint at index 0 replaying the bad deal. -/
def cexJust : Justification Zq :=
  { sessionID := 1, index := 0, deal := cexBadDeal, signature := 0 }

/-- A justification for the complaint at index 0 republishing a correct deal. -/
def cexJustGood : Justification Zq :=
  { sessionID := 1, index := 0, deal := cexDeal, signature := 0 }

/-! Helper lemmas: folds as sums and products. -/

theorem foldl_add_eq {α : Type} (f : K → α → K) (g : α → K)
    (h : ∀ acc i, f acc i = acc + g i) :
    ∀ (l : List α) (a : K), l.foldl f a = a + (l.map g).sum := by
  intro l
  induction l with
  | nil => intro a; simp
  | cons i rest ih =>
    intro a
    simp only [List.foldl_cons, List.map_cons, List.sum_cons, h]
    rw [ih]
    ring

theorem foldl_mul_eq {α : Type} (f : K → α → K) (g : α → K)
    (h : ∀ acc i, f acc i = acc * g i) :
    ∀ (l : List α) (a : K), l.foldl f a = a * (l.map g).prod := by
  intro l
  induction l with
  | nil => intro a; simp
  | cons i rest ih =>
    intro a
    simp only [List.foldl_cons, List.map_cons, List.prod_cons, h]
    rw [ih]
    ring

theorem sum_map_range (g : Nat → K) (n : Nat) :
    ((List.range n).map g).sum = ∑ i ∈ Finset.range n, g i := by
  induction n with
  | zero => simp
  | succ m ih => rw [List.range_succ, Finset.sum_range_succ, ← ih]; simp

theorem prod_map_range (g : Nat → K) (n : Nat) :
    ((List.range n).map g).prod = ∏ i ∈ Finset.range n, g i := by
  induction n with
  | zero => simp
  | succ m ih => rw [List.range_succ, Finset.prod_range_succ, ← ih]; simp

/-! Helper lemmas: characterization of the xCoords loop. -/

theorem xCoordsLoop_broken (t : Nat) (isNotNil : Nat → Bool) :
    ∀ (l : List Nat) (c : Nat),
      xCoordsLoop (K := K) t isNotNil l c true = (l.map fun _ => none, c) := by
  intro l
  induction l with
  | nil => intro c; rfl
  | cons i rest ih => intro c; simp [xCoordsLoop, ih]

theorem xCoordsLoop_running (t : Nat) (isNotNil : Nat → Bool) :
    ∀ (l : List Nat) (c : Nat), l.Nodup → c < t →
      xCoordsLoop (K := K) t isNotNil l c false
        = (l.map fun i =>
             if i ∈ (l.filter isNotNil).take (t - c) then some (xCoordOf i) else none,
           c + min (t - c) (l.filter isNotNil).length) := by
  intro l
  induction l with
  | nil => intro c _ _; simp [xCoordsLoop]
  | cons i rest ih =>
    intro c hnd hc
    have hnotmem : i ∉ rest := (List.nodup_cons.mp hnd).1
    have hndr : rest.Nodup := (List.nodup_cons.mp hnd).2
    by_cases hi : isNotNil i = true
    · rw [List.filter_cons_of_pos hi]
      show (if isNotNil i = true then _ else _) = _
      rw [if_pos hi]
      by_cases hbreak : t ≤ c + 1
      · rw [decide_eq_true hbreak, xCoordsLoop_broken t isNotNil rest (c + 1)]
        have htake : t - c = 1 := by omega
        rw [htake, List.take_succ_cons, List.take_zero, List.map_cons]
        have hhead : (if i ∈ [i] then some (xCoordOf (K := K) i) else none)
            = some (xCoordOf i) := by simp
        have htail : rest.map
              (fun j => if j ∈ [i] then some (xCoordOf (K := K) j) else none)
            = rest.map fun _ => none := by
          refine List.map_congr_left fun j hj => ?_
          have hji : ¬(j = i) := by rintro rfl; exact hnotmem hj
          simp [hji]
        rw [hhead, htail]
        dsimp only
        rw [Prod.mk.injEq]
        exact ⟨rfl, by simp only [List.length_cons]; omega⟩
      · rw [decide_eq_false hbreak, ih (c + 1) hndr (by omega)]
        have htake : t - c = (t - (c + 1)) + 1 := by omega
        rw [htake, List.take_succ_cons, List.map_cons]
        have hhead : (if i ∈ i :: (rest.filter isNotNil).take (t - (c + 1)) then
              some (xCoordOf (K := K) i) else none) = some (xCoordOf i) := by
          simp
        have htail : rest.map
              (fun j => if j ∈ i :: (rest.filter isNotNil).take (t - (c + 1)) then
                some (xCoordOf (K := K) j) else none)
            = rest.map fun j =>
                if j ∈ (rest.filter isNotNil).take (t - (c + 1)) then
                  some (xCoordOf j) else none := by
          refine List.map_congr_left fun j hj => ?_
          have hji : ¬(j = i) := by rintro rfl; exact hnotmem hj
          simp [List.mem_cons, hji]
        rw [hhead, htail]
        dsimp only
        rw [Prod.mk.injEq]
        exact ⟨rfl, by simp only [List.length_cons]; omega⟩
    · have hi' : isNotNil i = false := by
        cases h : isNotNil i
        · rfl
        · exact absurd h hi
      rw [List.filter_cons_of_neg (by simp [hi'])]
      show (if isNotNil i = true then _ else _) = _
      rw [if_neg (by simp [hi']), ih c hndr hc, List.map_cons]
      have hhead : (if i ∈ (rest.filter isNotNil).take (t - c) then
            some (xCoordOf (K := K) i) else none) = none := by
        have hmem : ¬(i ∈ (rest.filter isNotNil).take (t - c)) := fun hmem =>
          hnotmem ((List.filter_sublist rest).mem (List.mem_of_mem_take hmem))
        simp [hmem]
      rw [hhead]

theorem xCoords_ok (t n : Nat) (isNotNil : Nat → Bool) (ht : 1 ≤ t)
    (h : t ≤ ((List.range n).filter isNotNil).length) :
    xCoords (K := K) t n isNotNil
      = Except.ok ((List.range n).map fun i =>
          if i ∈ selOf t n isNotNil then some (xCoordOf i) else none) := by
  unfold xCoords
  rw [xCoordsLoop_running t isNotNil (List.range n) 0 (List.nodup_range n) (by omega)]
  dsimp only
  rw [if_neg (by omega)]
  simp only [Nat.sub_zero, selOf]

theorem xCoords_insufficient (t n : Nat) (isNotNil : Nat → Bool) (ht : 1 ≤ t)
    (h : ((List.range n).filter isNotNil).length < t) :
    xCoords (K := K) t n isNotNil
      = Except.error "Not enough shares to reconstruct secret" := by
  unfold xCoords
  rw [xCoordsLoop_running t isNotNil (List.range n) 0 (List.nodup_range n) (by omega)]
  dsimp only
  rw [if_pos (by omega)]

/-! Helper lemmas: the selected positions. -/

theorem selOf_sublist (t n : Nat) (isNotNil : Nat → Bool) :
    List.Sublist (selOf t n isNotNil) (List.range n) :=
  (List.take_sublist t _).trans (List.filter_sublist _)

theorem selOf_nodup (t n : Nat) (isNotNil : Nat → Bool) : (selOf t n isNotNil).Nodup :=
  List.Nodup.sublist (selOf_sublist t n isNotNil) (List.nodup_range n)

theorem mem_selOf_lt {t n : Nat} {isNotNil : Nat → Bool} {i : Nat}
    (h : i ∈ selOf t n isNotNil) : i < n :=
  List.mem_range.mp ((selOf_sublist t n isNotNil).mem h)

theorem mem_selOf_isNotNil {t n : Nat} {isNotNil : Nat → Bool} {i : Nat}
    (h : i ∈ selOf t n isNotNil) : isNotNil i = true :=
  (List.mem_filter.mp (List.mem_of_mem_take h)).2

theorem selOf_length {t n : Nat} {isNotNil : Nat → Bool}
    (h : t ≤ ((List.range n).filter isNotNil).length) :
    (selOf t n isNotNil).length = t := by
  unfold selOf
  rw [List.length_take]
  omega

/-! Helper lemmas: counting the non-nil shares. -/

theorem isNotNilAt_cons_succ (o : Option (PriShare K))
    (rest : List (Option (PriShare K))) (j : Nat) :
    isNotNilAt (o :: rest) (j + 1) = isNotNilAt rest j := by
  simp [isNotNilAt, shareAt]

theorem countP_isSome_eq (shares : List (Option (PriShare K))) :
    shares.countP (fun o => o.isSome)
      = ((List.range shares.length).filter (isNotNilAt shares)).length := by
  induction shares with
  | nil => rfl
  | cons o rest ih =>
    rw [List.countP_cons, List.length_cons, List.range_succ_eq_map,
      List.filter_cons, List.filter_map]
    have hcomp : (isNotNilAt (o :: rest)) ∘ Nat.succ = isNotNilAt rest := by
      funext j
      exact isNotNilAt_cons_succ o rest j
    have h0 : isNotNilAt (o :: rest) 0 = o.isSome := by simp [isNotNilAt, shareAt]
    rw [hcomp, h0, ih]
    cases h : o.isSome <;> simp

/-! Helper lemmas: access into the x-coordinate array. -/

theorem getD_map_range (f : Nat → Option K) (n j : Nat) :
    ((List.range n).map f).getD j none = if j < n then f j else none := by
  by_cases h : j < n
  · rw [if_pos h, List.getD_eq_getElem?_getD, List.getElem?_map,
      List.getElem?_range h]
    rfl
  · rw [if_neg h, List.getD_eq_getElem?_getD, List.getElem?_map]
    have hnone : (List.range n)[j]? = none := by
      rw [List.getElem?_eq_none]
      simpa using Nat.le_of_not_lt h
    rw [hnone]
    rfl

theorem getD_xListOf (t n : Nat) (isNotNil : Nat → Bool) (j : Nat) :
    (xListOf (K := K) t n isNotNil).getD j none
      = if j ∈ selOf t n isNotNil then some (xCoordOf j) else none := by
  unfold xListOf
  rw [getD_map_range]
  by_cases h : j < n
  · rw [if_pos h]
  · have hnot : ¬(j ∈ selOf t n isNotNil) := fun hm => h (mem_selOf_lt hm)
    rw [if_neg h, if_neg hnot]

theorem length_xListOf (t n : Nat) (isNotNil : Nat → Bool) :
    (xListOf (K := K) t n isNotNil).length = n := by
  unfold xListOf
  rw [List.length_map, List.length_range]

theorem filter_range_eq_finset (n : Nat) (s : Finset Nat) (hs : ∀ j ∈ s, j < n) :
    (Finset.range n).filter (fun j => j ∈ s) = s := by
  ext j
  simp only [Finset.mem_filter, Finset.mem_range]
  exact ⟨fun h => h.2, fun h => ⟨hs j h, h⟩⟩

theorem filter_range_mem_list (n : Nat) (l : List Nat) (hs : ∀ j ∈ l, j < n) :
    (Finset.range n).filter (fun j => j ∈ l) = l.toFinset := by
  ext j
  simp only [Finset.mem_filter, Finset.mem_range, List.mem_toFinset]
  exact ⟨fun h => h.2, fun h => ⟨hs j h, h⟩⟩

/-! Helper lemmas: the step functions on the produced x-coordinate array. -/

theorem numStep_eq (t n : Nat) (isNotNil : Nat → Bool) (i acc j : Nat) (ac : K) :
    numStep (xListOf t n isNotNil) i ac j
      = ac * (if j ∈ selOf t n isNotNil ∧ j ≠ i then xCoordOf j else 1) := by
  unfold numStep
  by_cases hji : j = i
  · rw [if_pos hji, if_neg (fun h => h.2 hji), mul_one]
  · rw [if_neg hji, getD_xListOf]
    by_cases hjs : j ∈ selOf t n isNotNil
    · rw [if_pos hjs, if_pos ⟨hjs, hji⟩]
    · rw [if_neg hjs, if_neg (fun h => hjs h.1), mul_one]

theorem denStep_eq (t n : Nat) (isNotNil : Nat → Bool) (i j : Nat) (xi ac : K) :
    denStep (xListOf t n isNotNil) i xi ac j
      = ac * (if j ∈ selOf t n isNotNil ∧ j ≠ i then xCoordOf j - xi else 1) := by
  unfold denStep
  by_cases hji : j = i
  · rw [if_pos hji, if_neg (fun h => h.2 hji), mul_one]
  · rw [if_neg hji, getD_xListOf]
    by_cases hjs : j ∈ selOf t n isNotNil
    · rw [if_pos hjs, if_pos ⟨hjs, hji⟩]
    · rw [if_neg hjs, if_neg (fun h => hjs h.1), mul_one]

theorem prod_ite_selOf (t n : Nat) (isNotNil : Nat → Bool) (i : Nat)
    (f : Nat → K) :
    (∏ j ∈ Finset.range n,
        (if j ∈ selOf t n isNotNil ∧ j ≠ i then f j else 1))
      = ∏ j ∈ (selOf t n isNotNil).toFinset.erase i, f j := by
  have hpt : ∀ j ∈ Finset.range n,
      (if j ∈ selOf t n isNotNil ∧ j ≠ i then f j else 1)
        = if j ∈ (selOf t n isNotNil).toFinset.erase i then f j else 1 := by
    intro j _
    by_cases hj : j ∈ selOf t n isNotNil ∧ j ≠ i
    · rw [if_pos hj, if_pos (Finset.mem_erase.mpr ⟨hj.2, List.mem_toFinset.mpr hj.1⟩)]
    · rw [if_neg hj, if_neg fun hm => hj
        ⟨List.mem_toFinset.mp (Finset.mem_erase.mp hm).2, (Finset.mem_erase.mp hm).1⟩]
  rw [Finset.prod_congr rfl hpt, ← Finset.prod_filter,
    filter_range_eq_finset n _ fun j hj =>
      mem_selOf_lt (List.mem_toFinset.mp (Finset.mem_erase.mp hj).2)]

theorem numAcc_eq (t n : Nat) (isNotNil : Nat → Bool) (i : Nat) (v0 : K) :
    numAcc (xListOf t n isNotNil) i v0
      = v0 * ∏ j ∈ (selOf t n isNotNil).toFinset.erase i, xCoordOf j := by
  unfold numAcc
  rw [foldl_mul_eq (numStep (xListOf t n isNotNil) i)
    (fun j => if j ∈ selOf t n isNotNil ∧ j ≠ i then xCoordOf j else 1)
    (fun ac j => numStep_eq t n isNotNil i 0 j ac) _ v0]
  rw [length_xListOf, prod_map_range, prod_ite_selOf]

theorem denAcc_eq (t n : Nat) (isNotNil : Nat → Bool) (i : Nat) (xi : K) :
    denAcc (xListOf t n isNotNil) i xi
      = ∏ j ∈ (selOf t n isNotNil).toFinset.erase i, (xCoordOf j - xi) := by
  unfold denAcc
  rw [foldl_mul_eq (denStep (xListOf t n isNotNil) i xi)
    (fun j => if j ∈ selOf t n isNotNil ∧ j ≠ i then xCoordOf j - xi else 1)
    (fun ac j => denStep_eq t n isNotNil i j xi ac) _ 1]
  rw [length_xListOf, prod_map_range, prod_ite_selOf, one_mul]

theorem recoverStep_eq (shares : List (Option (PriShare K))) (t n : Nat)
    (isNotNil : Nat → Bool) (ac : K) (i : Nat) :
    recoverStep shares (xListOf t n isNotNil) ac i
      = ac + (if i ∈ selOf t n isNotNil then
          (valAt shares i * ∏ j ∈ (selOf t n isNotNil).toFinset.erase i, xCoordOf j) /
            ∏ j ∈ (selOf t n isNotNil).toFinset.erase i, (xCoordOf j - xCoordOf i)
        else 0) := by
  unfold recoverStep
  rw [getD_xListOf]
  by_cases hi : i ∈ selOf t n isNotNil
  · rw [if_pos hi, if_pos hi]
    show ac + numAcc (xListOf t n isNotNil) i (valAt shares i) /
        denAcc (xListOf t n isNotNil) i (xCoordOf i) = _
    rw [numAcc_eq, denAcc_eq]
  · rw [if_neg hi, if_neg hi, add_zero]

/-! The bridge: RecoverSecret as a Lagrange sum over the selected positions. -/

theorem recoverSecret_ok (shares : List (Option (PriShare K))) (t : Nat)
    (ht : 1 ≤ t) (hc : t ≤ shares.countP (fun o => o.isSome)) :
    RecoverSecret shares t
      = Except.ok (lagrangeInterp0 (selIndices t shares) (valAt shares)) := by
  have hc' : t ≤ ((List.range shares.length).filter (isNotNilAt shares)).length := by
    rw [← countP_isSome_eq]
    exact hc
  unfold RecoverSecret
  rw [xCoords_ok t shares.length (isNotNilAt shares) ht hc']
  show Except.ok _ = _
  refine congrArg Except.ok ?_
  rw [show ((List.range shares.length).map fun i =>
      if i ∈ selOf t shares.length (isNotNilAt shares) then
        some (xCoordOf (K := K) i) else none) = xListOf t shares.length (isNotNilAt shares)
    from rfl]
  rw [foldl_add_eq (recoverStep shares (xListOf t shares.length (isNotNilAt shares)))
    (fun i => if i ∈ selOf t shares.length (isNotNilAt shares) then
      (valAt shares i * ∏ j ∈ (selOf t shares.length (isNotNilAt shares)).toFinset.erase i,
          xCoordOf j) /
        ∏ j ∈ (selOf t shares.length (isNotNilAt shares)).toFinset.erase i,
          (xCoordOf j - xCoordOf i)
      else 0)
    (fun ac i => recoverStep_eq shares t shares.length (isNotNilAt shares) ac i) _ 0]
  rw [zero_add, length_xListOf, sum_map_range, ← Finset.sum_filter,
    filter_range_mem_list shares.length _ (fun j hj => mem_selOf_lt hj)]
  rfl

theorem recoverSecret_insufficient (shares : List (Option (PriShare K))) (t : Nat)
    (ht : 1 ≤ t) (hc : shares.countP (fun o => o.isSome) < t) :
    RecoverSecret shares t
      = Except.error "Not enough shares to reconstruct secret" := by
  have hc' : ((List.range shares.length).filter (isNotNilAt shares)).length < t := by
    rw [← countP_isSome_eq]
    exact hc
  unfold RecoverSecret
  rw [xCoords_insufficient t shares.length (isNotNilAt shares) ht hc']

/-! The Lagrange interpolation core, bridged through the Mathlib polynomials. -/

theorem horner_eq_eval (l : List K) (x : K) : horner l x = (toPoly l).eval x := by
  induction l with
  | nil => simp [horner, toPoly]
  | cons c r ih =>
    unfold horner at ih ⊢
    rw [List.foldr_cons, toPoly]
    simp only [Polynomial.eval_add, Polynomial.eval_C, Polynomial.eval_mul,
      Polynomial.eval_X]
    rw [← ih]
    ring

theorem toPoly_degree_lt (l : List K) :
    (toPoly l).degree < ((l.length : Nat) : WithBot Nat) := by
  induction l with
  | nil =>
    rw [toPoly]
    simpa using WithBot.bot_lt_coe 0
  | cons c r ih =>
    rw [toPoly]
    refine lt_of_le_of_lt (Polynomial.degree_add_le _ _) (max_lt ?_ ?_)
    · refine lt_of_le_of_lt Polynomial.degree_C_le ?_
      rw [List.length_cons]
      exact_mod_cast Nat.succ_pos r.length
    · rw [Polynomial.degree_mul, Polynomial.degree_X, List.length_cons]
      have h1 : ((r.length + 1 : Nat) : WithBot Nat) = 1 + (r.length : Nat) := by
        push_cast
        ring
      rw [h1]
      exact WithBot.add_lt_add_left (by simp) ih

theorem toPoly_eval_zero (c : K) (l : List K) : (toPoly (c :: l)).eval 0 = c := by
  rw [toPoly]
  simp

theorem eval_zero_basisDivisor (x y : K) :
    Polynomial.eval 0 (Lagrange.basisDivisor x y) = y * (y - x)⁻¹ := by
  unfold Lagrange.basisDivisor
  simp only [Polynomial.eval_mul, Polynomial.eval_C, Polynomial.eval_sub,
    Polynomial.eval_X]
  rw [show y - x = -(x - y) by ring, inv_neg]
  ring

theorem lagrangeInterp0_eval (sel : List Nat) (f : Polynomial K)
    (hinj : Set.InjOn (fun i : Nat => xCoordOf (K := K) i) sel.toFinset)
    (hdeg : f.degree < ((sel.toFinset.card : Nat) : WithBot Nat)) :
    lagrangeInterp0 sel (fun i => f.eval (xCoordOf i)) = f.eval 0 := by
  have hinterp := Lagrange.eq_interpolate
    (v := fun i : Nat => xCoordOf (K := K) i) (s := sel.toFinset) hinj hdeg
  have h0 := congrArg (Polynomial.eval 0) hinterp
  rw [Lagrange.interpolate_apply, Polynomial.eval_finset_sum] at h0
  rw [h0]
  unfold lagrangeInterp0
  refine Finset.sum_congr rfl fun i hi => ?_
  rw [Polynomial.eval_mul, Polynomial.eval_C, Lagrange.basis,
    Polynomial.eval_prod]
  have hfac : ∀ j ∈ sel.toFinset.erase i,
      Polynomial.eval 0 (Lagrange.basisDivisor (xCoordOf (K := K) i) (xCoordOf j))
        = xCoordOf j * (xCoordOf j - xCoordOf i)⁻¹ := fun j _ =>
    eval_zero_basisDivisor _ _
  rw [Finset.prod_congr rfl hfac, Finset.prod_mul_distrib,
    Finset.prod_inv_distrib]
  rw [div_eq_mul_inv, mul_assoc]

/-! Claim theorems for the polynomial layer. -/

theorem eval_nat_v (p : PriPoly K) (k : Nat) :
    (p.Eval (k : Int)).v = (toPoly p.coeffs).eval (xCoordOf k) := by
  unfold PriPoly.Eval
  dsimp only
  rw [horner_eq_eval]
  congr 1
  unfold xCoordOf
  push_cast
  ring

theorem horner_map_pointMul (b : PointRef K) (l : List K) (x : K) :
    horner (l.map fun c => pointMul b c) x = pointMul b (horner l x) := by
  induction l with
  | nil => simp [horner, pointMul]
  | cons c r ih =>
    unfold horner at ih ⊢
    rw [List.map_cons, List.foldr_cons, List.foldr_cons, ih]
    unfold pointMul
    ring

/-- C1: for every field of scalars in which the x-coordinates `1..n` are
distinct, every threshold `2 ≤ t ≤ n`, every secret `s`, and every length-`n`
share list each of whose entries is either nil or the share `p.Eval(k)` of
`p = NewPriPoly(s, rand)` at its own position `k`, if at least `t` entries are
non-nil then `RecoverSecret` returns the secret `s` (the constant coefficient
of `p`) and no error. -/
theorem C1_recoverSecret_of_shares (t n : Nat) (s : K) (fRand : List K)
    (shares : List (Option (PriShare K)))
    (ht : 2 ≤ t) (htn : t ≤ n) (hlen : shares.length = n)
    (hrand : fRand.length = t - 1)
    (hinj : ∀ i, i < n → ∀ j, j < n →
      ((i + 1 : Nat) : K) = ((j + 1 : Nat) : K) → i = j)
    (hsh : ∀ k, k < n → shares.getD k none = none ∨
      shares.getD k none = some ((NewPriPoly s fRand).Eval (k : Int)))
    (hcount : t ≤ shares.countP (fun o => o.isSome)) :
    RecoverSecret shares t = Except.ok s := by
  subst hlen
  have ht1 : 1 ≤ t := by omega
  rw [recoverSecret_ok shares t ht1 hcount]
  refine congrArg Except.ok ?_
  have hseldef : selIndices t shares
      = selOf t shares.length (isNotNilAt shares) := rfl
  rw [hseldef]
  have hval : ∀ i ∈ (selOf t shares.length (isNotNilAt shares)).toFinset,
      valAt shares i = (toPoly (NewPriPoly s fRand).coeffs).eval (xCoordOf i) := by
    intro i hi
    have hmem := List.mem_toFinset.mp hi
    have hlt : i < shares.length := mem_selOf_lt hmem
    have hnn : isNotNilAt shares i = true := mem_selOf_isNotNil hmem
    rcases hsh i hlt with hnone | hsome
    · exfalso
      rw [isNotNilAt, shareAt, hnone] at hnn
      exact Bool.noConfusion hnn
    · rw [valAt, shareAt, hsome]
      exact eval_nat_v (NewPriPoly s fRand) i
  have hcongr : lagrangeInterp0 (selOf t shares.length (isNotNilAt shares))
        (valAt shares)
      = lagrangeInterp0 (selOf t shares.length (isNotNilAt shares))
        (fun i => (toPoly (NewPriPoly s fRand).coeffs).eval (xCoordOf i)) := by
    unfold lagrangeInterp0
    exact Finset.sum_congr rfl fun i hi => by rw [hval i hi]
  rw [hcongr]
  have hinjOn : Set.InjOn (fun i : Nat => xCoordOf (K := K) i)
      (selOf t shares.length (isNotNilAt shares)).toFinset := by
    intro a ha b hb hab
    have ha' : a < shares.length := mem_selOf_lt (List.mem_toFinset.mp ha)
    have hb' : b < shares.length := mem_selOf_lt (List.mem_toFinset.mp hb)
    exact hinj a ha' b hb' hab
  have hfl : t ≤ ((List.range shares.length).filter (isNotNilAt shares)).length := by
    rw [← countP_isSome_eq]
    exact hcount
  have hcard : (selOf t shares.length (isNotNilAt shares)).toFinset.card = t := by
    rw [List.toFinset_card_of_nodup (selOf_nodup t shares.length (isNotNilAt shares)),
      selOf_length hfl]
  have hclen : (NewPriPoly s fRand).coeffs.length = t := by
    rw [NewPriPoly, List.length_cons, hrand]
    omega
  have hdeg : (toPoly (NewPriPoly s fRand).coeffs).degree
      < (((selOf t shares.length (isNotNilAt shares)).toFinset.card : Nat) :
          WithBot Nat) := by
    rw [hcard]
    have h := toPoly_degree_lt (NewPriPoly s fRand).coeffs
    rwa [hclen] at h
  rw [lagrangeInterp0_eval _ _ hinjOn hdeg]
  exact toPoly_eval_zero s fRand

/-- C9: for every share list and every threshold `t ≥ 1`, `RecoverSecret`
returns the insufficient-shares error exactly when fewer than `t` entries are
non-nil; with at least `t` non-nil entries it succeeds, returning the Lagrange
interpolation at zero computed from exactly the first `t` non-nil positions in
index order (`selIndices` is by definition `take t` of the non-nil positions
scanned left to right). -/
theorem C9_recoverSecret_selection (shares : List (Option (PriShare K))) (t : Nat)
    (ht : 1 ≤ t) :
    (RecoverSecret shares t = Except.error "Not enough shares to reconstruct secret"
      ↔ shares.countP (fun o => o.isSome) < t) ∧
    (t ≤ shares.countP (fun o => o.isSome) →
      RecoverSecret shares t
        = Except.ok (lagrangeInterp0 (selIndices t shares) (valAt shares))) := by
  refine ⟨⟨fun herr => ?_, recoverSecret_insufficient shares t ht⟩,
    recoverSecret_ok shares t ht⟩
  by_contra hge
  rw [recoverSecret_ok shares t ht (Nat.le_of_not_lt hge)] at herr
  exact Except.noConfusion herr

/-- C6: for every private polynomial with threshold at least one, every base
point reference, and every index `i ≥ 0`, the share `p.Eval(i)` checks against
the commitment polynomial `p.Commit(b)`. -/
theorem C6_commit_check (p : PriPoly K) (b : PointRef K) (i : Int)
    (ht : 1 ≤ p.coeffs.length) (hi : 0 ≤ i) :
    (p.Commit b).Check (p.Eval i) = true := by
  unfold PriPoly.Commit PubPoly.Check PriPoly.Eval PubPoly.Eval
  dsimp only
  rw [horner_map_pointMul]
  rw [decide_eq_true_eq]

/-- Witness for C1 at a concrete input: the polynomial 5 + x over `Zq`, three
shares of which the first and third are present. -/
theorem C1_recoverSecret_witness :
    RecoverSecret (K := Zq) [some ⟨0, 6⟩, none, some ⟨2, 8⟩] 2 = Except.ok 5 :=
  C1_recoverSecret_of_shares 2 3 5 [1] _ (by decide) (by decide) (by decide)
    (by decide) (by decide) (by decide) (by decide)

/-- Witness for C9 at a concrete input. -/
theorem C9_recoverSecret_witness :
    ((RecoverSecret (K := Zq) [none, some ⟨1, 7⟩, some ⟨2, 8⟩] 2
        = Except.error "Not enough shares to reconstruct secret"
      ↔ List.countP (fun o => o.isSome)
          ([none, some ⟨1, 7⟩, some ⟨2, 8⟩] : List (Option (PriShare Zq))) < 2) ∧
    (2 ≤ List.countP (fun o => o.isSome)
        ([none, some ⟨1, 7⟩, some ⟨2, 8⟩] : List (Option (PriShare Zq))) →
      RecoverSecret (K := Zq) [none, some ⟨1, 7⟩, some ⟨2, 8⟩] 2
        = Except.ok (lagrangeInterp0
            (selIndices 2 [none, some ⟨1, 7⟩, some ⟨2, 8⟩])
            (valAt [none, some ⟨1, 7⟩, some ⟨2, 8⟩])))) :=
  C9_recoverSecret_selection [none, some ⟨1, 7⟩, some ⟨2, 8⟩] 2 (by decide)

/-- Witness for C6 at a concrete input. -/
theorem C6_commit_check_witness :
    ((PriPoly.Commit (K := Zq) ⟨[5, 1]⟩ (some (3, 2))).Check
      ((⟨[5, 1]⟩ : PriPoly Zq).Eval 1)) = true :=
  C6_commit_check ⟨[5, 1]⟩ (some (3, 2)) 1 (by decide) (by decide)

/-! Structural lemmas about the aggregator operations. -/

theorem VerifyDeal_responses (cp : CryptoPrim K) (a : Aggregator K) (d : Deal K)
    (inclusion : Bool) : ((VerifyDeal cp a d inclusion).1).responses = a.responses := by
  unfold VerifyDeal
  dsimp only
  split_ifs <;> rfl

theorem VerifyDeal_verifiers (cp : CryptoPrim K) (a : Aggregator K) (d : Deal K)
    (inclusion : Bool) : ((VerifyDeal cp a d inclusion).1).verifiers = a.verifiers := by
  unfold VerifyDeal
  dsimp only
  split_ifs <;> rfl

theorem VerifyDeal_badDealer (cp : CryptoPrim K) (a : Aggregator K) (d : Deal K)
    (inclusion : Bool) : ((VerifyDeal cp a d inclusion).1).badDealer = a.badDealer := by
  unfold VerifyDeal
  dsimp only
  split_ifs <;> rfl

theorem VerifyDeal_t (cp : CryptoPrim K) (a : Aggregator K) (d : Deal K)
    (inclusion : Bool) : ((VerifyDeal cp a d inclusion).1).t = a.t := by
  unfold VerifyDeal
  dsimp only
  split_ifs <;> rfl

theorem addResponse_badDealer (a : Aggregator K) (r : Response) :
    ((addResponse a r).1).badDealer = a.badDealer := by
  unfold addResponse
  split_ifs <;> rfl

theorem verifyResponse_badDealer (cp : CryptoPrim K) (a : Aggregator K)
    (r : Response) : ((verifyResponse cp a r).1).badDealer = a.badDealer := by
  unfold verifyResponse
  split_ifs with h1
  · rfl
  · cases hfp : findPub a.verifiers r.index with
    | none => rfl
    | some pub =>
      dsimp only
      split_ifs
      · rfl
      · exact addResponse_badDealer a r

theorem verifyJustification_badDealer_mono (cp : CryptoPrim K) (a : Aggregator K)
    (j : Justification K) (h : a.badDealer = true) :
    ((verifyJustification cp a j).1).badDealer = true := by
  unfold verifyJustification
  split_ifs with h1
  · exact h
  · cases hr : findResp a.responses j.index with
    | none => exact h
    | some r =>
      dsimp only
      split_ifs with h2
      · exact h
      · cases hv : VerifyDeal cp a j.deal false with
        | mk a2 e =>
          cases e with
          | none =>
            show ({ a2 with responses := setApproved a2.responses j.index} :
              Aggregator K).badDealer = true
            show a2.badDealer = true
            rw [show a2 = (VerifyDeal cp a j.deal false).1 from by rw [hv]]
            rw [VerifyDeal_badDealer]
            exact h
          | some err =>
            show ({ a2 with badDealer := true} : Aggregator K).badDealer = true
            rfl

theorem findResp_setApproved (rs : List Response) (i : Nat) :
    findResp (setApproved rs i) i
      = (findResp rs i).map (fun r => { r with approved := true }) := by
  induction rs with
  | nil => rfl
  | cons r rest ih =>
    unfold findResp setApproved at ih ⊢
    rw [List.map_cons]
    by_cases hri : (r.index == i) = true
    · rw [if_pos hri]
      simp only [List.find?_cons]
      rw [hri]
      rfl
    · have hri' : (r.index == i) = false := by
        cases h : r.index == i
        · rfl
        · exact absurd h hri
      rw [if_neg hri]
      simp only [List.find?_cons]
      rw [hri']
      exact ih

/-! Claim theorems for the aggregator layer. -/

/-- C4: DealCertified is true exactly when there are at least `t` approvals,
fewer than `t` complaints and the dealer has not been flagged; in particular it
is true with exactly `t` approvals and no complaints, and false with `t - 1`
approvals. -/
theorem C4_dealCertified_iff (a : Aggregator K) :
    (DealCertified (some a) = true ↔
      (a.t ≤ a.responses.countP (fun r => r.approved) ∧
        a.responses.countP (fun r => !r.approved) < a.t ∧
        a.badDealer = false)) ∧
    (1 ≤ a.t → a.responses.countP (fun r => r.approved) = a.t →
      a.responses.countP (fun r => !r.approved) = 0 → a.badDealer = false →
      DealCertified (some a) = true) ∧
    (1 ≤ a.t → a.responses.countP (fun r => r.approved) = a.t - 1 →
      DealCertified (some a) = false) := by
  have hiff : DealCertified (some a) = true ↔
      (a.t ≤ a.responses.countP (fun r => r.approved) ∧
        a.responses.countP (fun r => !r.approved) < a.t ∧
        a.badDealer = false) := by
    unfold DealCertified EnoughApprovals
    dsimp only
    rw [Bool.and_eq_true, Bool.not_eq_true', Bool.or_eq_false_iff]
    rw [decide_eq_true_eq, decide_eq_false_iff_not]
    constructor
    · rintro ⟨h1, h2, h3⟩
      exact ⟨h1, by omega, h3⟩
    · rintro ⟨h1, h2, h3⟩
      exact ⟨h1, by omega, h3⟩
  refine ⟨hiff, fun h1 h2 h3 h4 => hiff.mpr ⟨by omega, by omega, h4⟩,
    fun h1 h2 => ?_⟩
  cases hdc : DealCertified (some a) with
  | false => rfl
  | true =>
    have h := hiff.mp hdc
    omega

/-- C7: adding a response for an index that already holds a stored response
fails with an error and leaves the aggregator unchanged, through `addResponse`
directly and through `verifyResponse`. -/
theorem C7_duplicate_response (cp : CryptoPrim K) (a : Aggregator K) (r : Response)
    (h : (findResp a.responses r.index).isSome = true) :
    ((addResponse a r).2.isSome = true ∧ (addResponse a r).1 = a) ∧
    ((verifyResponse cp a r).2.isSome = true ∧ (verifyResponse cp a r).1 = a) := by
  have haddR : (addResponse a r).2.isSome = true ∧ (addResponse a r).1 = a := by
    unfold addResponse
    by_cases hb : (findPub a.verifiers r.index).isNone = true
    · rw [if_pos hb]
      exact ⟨rfl, rfl⟩
    · rw [if_neg hb, if_pos h]
      exact ⟨rfl, rfl⟩
  refine ⟨haddR, ?_⟩
  unfold verifyResponse
  by_cases h1 : r.sessionID ≠ a.sid
  · rw [if_pos h1]
    exact ⟨rfl, rfl⟩
  · rw [if_neg h1]
    cases hfp : findPub a.verifiers r.index with
    | none => exact ⟨rfl, rfl⟩
    | some pub =>
      dsimp only
      split_ifs with h2
      · exact ⟨rfl, rfl⟩
      · exact haddR

/-- C8: for a stored complaint at the justification index (with the index in
bounds), a justification whose deal re-verifies succeeds and flips the stored
response to approved; with no stored response, or a stored approval, it fails
and leaves the state unchanged. -/
theorem C8_justification (cp : CryptoPrim K) (a : Aggregator K)
    (j : Justification K) :
    (∀ r, findResp a.responses j.index = some r → r.approved = false →
      (findPub a.verifiers j.index).isSome = true →
      (VerifyDeal cp a j.deal false).2 = none →
      (verifyJustification cp a j).2 = none ∧
        findResp ((verifyJustification cp a j).1).responses j.index
          = some { r with approved := true }) ∧
    (findResp a.responses j.index = none →
      (verifyJustification cp a j).2.isSome = true ∧
        (verifyJustification cp a j).1 = a) ∧
    (∀ r, findResp a.responses j.index = some r → r.approved = true →
      (verifyJustification cp a j).2.isSome = true ∧
        (verifyJustification cp a j).1 = a) := by
  refine ⟨?_, ?_, ?_⟩
  · intro r hr hfalse hfp hvd
    unfold verifyJustification
    have hfp' : ¬((findPub a.verifiers j.index).isNone = true) := by
      intro he
      rw [Option.isNone_iff_eq_none] at he
      rw [he] at hfp
      exact Bool.noConfusion hfp
    rw [if_neg hfp', hr]
    dsimp only
    rw [if_neg (by rw [hfalse]; exact Bool.noConfusion)]
    cases hv : VerifyDeal cp a j.deal false with
    | mk a2 e =>
      rw [hv] at hvd
      dsimp only at hvd
      subst hvd
      constructor
      · rfl
      · show findResp (setApproved a2.responses j.index) j.index = _
        have ha2 : a2.responses = a.responses := by
          rw [show a2 = (VerifyDeal cp a j.deal false).1 from by rw [hv]]
          exact VerifyDeal_responses cp a j.deal false
        rw [ha2, findResp_setApproved, hr]
        rfl
  · intro hnone
    unfold verifyJustification
    by_cases hfp : (findPub a.verifiers j.index).isNone = true
    · rw [if_pos hfp]
      exact ⟨rfl, rfl⟩
    · rw [if_neg hfp, hnone]
      exact ⟨rfl, rfl⟩
  · intro r hr htrue
    unfold verifyJustification
    by_cases hfp : (findPub a.verifiers j.index).isNone = true
    · rw [if_pos hfp]
      exact ⟨rfl, rfl⟩
    · rw [if_neg hfp, hr]
      dsimp only
      rw [if_pos htrue]
      exact ⟨rfl, rfl⟩

/-- C10: a Verifier that has not yet processed an encrypted deal (no aggregator
present) reports DealCertified as false through the nil-receiver guard. -/
theorem C10_dealCertified_nil (v : Verifier K) (h : v.agg = none) :
    v.DealCertified = false := by
  unfold Verifier.DealCertified
  rw [h]
  rfl

/-! The bad-dealer latch: no verifier operation ever clears `badDealer`. -/

theorem processDecryptedDeal_badDealer (cp : CryptoPrim K) (v : Verifier K)
    (d : Deal K) (a : Aggregator K) (hagg : v.agg = some a)
    (hbad : a.badDealer = true) :
    ∃ a', ((processDecryptedDeal cp v d).1).agg = some a' ∧ a'.badDealer = true := by
  unfold processDecryptedDeal
  by_cases h1 : d.secShare.i ≠ (v.index : Int)
  · rw [if_pos h1]
    exact ⟨a, hagg, hbad⟩
  · rw [if_neg h1, hagg]
    dsimp only
    by_cases h2 : (VerifyDeal cp a d true).2 = some errDealAlreadyProcessed
    · rw [if_pos h2]
      exact ⟨(VerifyDeal cp a d true).1, rfl, by rw [VerifyDeal_badDealer]; exact hbad⟩
    · rw [if_neg h2]
      cases haddr : addResponse (VerifyDeal cp a d true).1
          { sessionID := cp.sessionID v.dealer v.verifiers d.commitments d.t,
            index := v.index,
            approved := (VerifyDeal cp a d true).2.isNone,
            signature := cp.schnorrSign v.longterm
              (cp.respHash (cp.sessionID v.dealer v.verifiers d.commitments d.t)
                v.index ((VerifyDeal cp a d true).2.isNone)) } with
      | mk agg2 e =>
        have hbd : agg2.badDealer = true := by
          have h := addResponse_badDealer (VerifyDeal cp a d true).1
            { sessionID := cp.sessionID v.dealer v.verifiers d.commitments d.t,
              index := v.index,
              approved := (VerifyDeal cp a d true).2.isNone,
              signature := cp.schnorrSign v.longterm
                (cp.respHash (cp.sessionID v.dealer v.verifiers d.commitments d.t)
                  v.index ((VerifyDeal cp a d true).2.isNone)) }
          rw [haddr] at h
          dsimp only at h
          rw [h, VerifyDeal_badDealer]
          exact hbad
        cases e with
        | none => exact ⟨agg2, rfl, hbd⟩
        | some err => exact ⟨agg2, rfl, hbd⟩

theorem vstep_badDealer (cp : CryptoPrim K) (v : Verifier K) (op : VssOp K)
    (h : ∃ a, v.agg = some a ∧ a.badDealer = true) :
    ∃ a', ((vstep cp v op).agg = some a' ∧ a'.badDealer = true) := by
  obtain ⟨a, hagg, hbad⟩ := h
  cases op with
  | procDeal d => exact processDecryptedDeal_badDealer cp v d a hagg hbad
  | procResp r =>
    unfold vstep
    rw [hagg]
    exact ⟨(verifyResponse cp a r).1, rfl,
      by rw [verifyResponse_badDealer]; exact hbad⟩
  | procJust j =>
    unfold vstep
    rw [hagg]
    exact ⟨(verifyJustification cp a j).1, rfl,
      verifyJustification_badDealer_mono cp a j hbad⟩

theorem vrun_badDealer (cp : CryptoPrim K) (v : Verifier K) (ops : List (VssOp K))
    (h : ∃ a, v.agg = some a ∧ a.badDealer = true) :
    ∃ a', ((vrun cp v ops).agg = some a' ∧ a'.badDealer = true) := by
  induction ops generalizing v with
  | nil => exact h
  | cons op rest ih =>
    unfold vrun at ih ⊢
    rw [List.foldl_cons]
    exact ih (vstep cp v op) (vstep_badDealer cp v op h)

theorem dealCertified_false_of_bad (a : Aggregator K) (h : a.badDealer = true) :
    DealCertified (some a) = false := by
  unfold DealCertified
  dsimp only
  rw [h, Bool.or_true, Bool.not_true, Bool.and_false]

/-- C5: once a verifier's aggregator processes an invalid justification (a
stored complaint at the index, the deal failing VerifyDeal), `badDealer` is set,
and `DealCertified` is false in that state and in every state reachable from it
by further deal, response or justification processing. -/
theorem C5_badDealer_latch (cp : CryptoPrim K) (v : Verifier K) (a : Aggregator K)
    (j : Justification K) (r : Response)
    (hagg : v.agg = some a)
    (hfp : (findPub a.verifiers j.index).isSome = true)
    (hr : findResp a.responses j.index = some r)
    (hfalse : r.approved = false)
    (hbad : ((VerifyDeal cp a j.deal false).2).isSome = true) :
    ((verifyJustification cp a j).1).badDealer = true ∧
    ∀ ops : List (VssOp K),
      (∃ a', (vrun cp { v with agg := some (verifyJustification cp a j).1 } ops).agg
          = some a' ∧ a'.badDealer = true) ∧
      DealCertified
        ((vrun cp { v with agg := some (verifyJustification cp a j).1 } ops).agg)
        = false := by
  have hlatch : ((verifyJustification cp a j).1).badDealer = true := by
    unfold verifyJustification
    have hfp' : ¬((findPub a.verifiers j.index).isNone = true) := by
      intro he
      rw [Option.isNone_iff_eq_none] at he
      rw [he] at hfp
      exact Bool.noConfusion hfp
    rw [if_neg hfp', hr]
    dsimp only
    rw [if_neg (by rw [hfalse]; exact Bool.noConfusion)]
    cases hv : VerifyDeal cp a j.deal false with
    | mk a2 e =>
      rw [hv] at hbad
      dsimp only at hbad
      cases e with
      | none => exact Bool.noConfusion hbad
      | some err => rfl
  refine ⟨hlatch, fun ops => ?_⟩
  obtain ⟨a', hagg', hbad'⟩ :=
    vrun_badDealer cp { v with agg := some (verifyJustification cp a j).1 } ops
      ⟨(verifyJustification cp a j).1, rfl, hlatch⟩
  refine ⟨⟨a', hagg', hbad'⟩, ?_⟩
  rw [hagg']
  exact dealCertified_false_of_bad a' hbad'

/-! C2 and C3: dealer construction and session-id handling. -/

/-- C2 (divergence witnessed): for every parameter set passing the `validT`
check, `NewDealer` does not return a Dealer: `F.Add G` compares the base point
objects of `F` (the standard-base object) and `G` (the derived generator `H`)
with Go interface equality, finds two distinct objects, and fails, and
`NewDealer` propagates that error. -/
theorem C2_newDealer_base_mismatch (cp : CryptoPrim K) (longterm secret : K)
    (verifiers fRand gCoeffs : List K) (t : Int)
    (hv : validT t verifiers = true) :
    NewDealer cp longterm secret verifiers fRand gCoeffs t
      = Except.error "Non-matching base points" := by
  unfold NewDealer
  rw [if_neg (by rw [hv]; exact Bool.noConfusion)]
  rfl

/-- Witness for C2 at a concrete valid input: t = 2 with two verifiers. -/
theorem C2_newDealer_witness :
    validT (K := Zq) 2 [3, 4] = true ∧
    NewDealer cexCP 3 5 [3, 4] [1] [2, 6] 2
      = Except.error "Non-matching base points" :=
  ⟨by decide, C2_newDealer_base_mismatch cexCP 3 5 [3, 4] [1] [2, 6] 2 (by decide)⟩

/-- C3 (amended): ProcessEncryptedDeal recomputes the session id and uses it as
the SessionID of the emitted Response, but never compares the deal's SessionID
field against it: on a first deal the aggregator is created with the deal's own
SessionID, so for every deal whose shares verify the call returns an approved
response and no error, whatever the deal's SessionID field contains. -/
theorem C3_processDeal_sid (cp : CryptoPrim K) (v : Verifier K) (d : Deal K)
    (hagg : v.agg = none)
    (hidx : d.secShare.i = (v.index : Int))
    (hidxlt : v.index < v.verifiers.length)
    (hver : (VerifyDeal cp
      (newAggregator v.dealer v.verifiers d.commitments d.t d.sessionID) d true).2
        = none) :
    ∃ r, (processDecryptedDeal cp v d).2 = Except.ok r ∧ r.approved = true ∧
      r.sessionID = cp.sessionID v.dealer v.verifiers d.commitments d.t := by
  unfold processDecryptedDeal
  rw [if_neg (fun hne => hne hidx), hagg]
  dsimp only
  rw [if_neg (by rw [hver]; exact fun hco => Option.noConfusion hco)]
  have hverifiers : ((VerifyDeal cp
      (newAggregator v.dealer v.verifiers d.commitments d.t d.sessionID) d true).1).verifiers
        = v.verifiers := by
    rw [VerifyDeal_verifiers]
    rfl
  have hresps : ((VerifyDeal cp
      (newAggregator v.dealer v.verifiers d.commitments d.t d.sessionID) d true).1).responses
        = [] := by
    rw [VerifyDeal_responses]
    rfl
  unfold addResponse
  rw [hverifiers, hresps]
  have hfp : (findPub v.verifiers v.index).isNone = false := by
    unfold findPub
    rw [List.getElem?_eq_getElem hidxlt]
    rfl
  rw [if_neg (by rw [hfp]; exact Bool.noConfusion)]
  rw [if_neg (by intro hso; exact Bool.noConfusion hso)]
  refine ⟨_, rfl, ?_, rfl⟩
  show (VerifyDeal cp
    (newAggregator v.dealer v.verifiers d.commitments d.t d.sessionID) d true).2.isNone
      = true
  rw [hver]
  rfl

/-- Counterexample for C3 as stated: a concrete deal whose SessionID field (1)
differs from the recomputed session id (0) is processed without error and with
an approved response. -/
theorem C3_counterexample :
    cexDeal.sessionID ≠ cexCP.sessionID cexVerifier.dealer cexVerifier.verifiers
        cexDeal.commitments cexDeal.t ∧
    (processDecryptedDeal cexCP cexVerifier cexDeal).2
      = Except.ok { sessionID := 0, index := 0, approved := true, signature := 0 } := by
  constructor
  · decide
  · decide

/-- Witness for the amended C3 at the same concrete input. -/
theorem C3_processDeal_sid_witness :
    ∃ r, (processDecryptedDeal cexCP cexVerifier cexDeal).2 = Except.ok r ∧
      r.approved = true ∧
      r.sessionID = cexCP.sessionID cexVerifier.dealer cexVerifier.verifiers
        cexDeal.commitments cexDeal.t :=
  C3_processDeal_sid cexCP cexVerifier cexDeal rfl (by decide) (by decide) (by decide)

/-! Witnesses for the aggregator claims. -/

/-- Witness for C4 at a concrete aggregator. -/
theorem C4_dealCertified_witness :
    (DealCertified (some cexAgg) = true ↔
      (cexAgg.t ≤ cexAgg.responses.countP (fun r => r.approved) ∧
        cexAgg.responses.countP (fun r => !r.approved) < cexAgg.t ∧
        cexAgg.badDealer = false)) ∧
    (1 ≤ cexAgg.t → cexAgg.responses.countP (fun r => r.approved) = cexAgg.t →
      cexAgg.responses.countP (fun r => !r.approved) = 0 → cexAgg.badDealer = false →
      DealCertified (some cexAgg) = true) ∧
    (1 ≤ cexAgg.t → cexAgg.responses.countP (fun r => r.approved) = cexAgg.t - 1 →
      DealCertified (some cexAgg) = false) :=
  C4_dealCertified_iff cexAgg

/-- Witness for C5: after the invalid justification `cexJust`, the bad-dealer
flag is set and certification stays false, here after one further response. -/
theorem C5_badDealer_witness :
    ((verifyJustification cexCP cexAgg cexJust).1).badDealer = true ∧
    (∃ a', (vrun cexCP
      { longterm := 3, pub := 3, dealer := 7, index := 0, verifiers := [3, 4],
        agg := some (verifyJustification cexCP cexAgg cexJust).1 }
      [VssOp.procResp
        { sessionID := 1, index := 1, approved := true, signature := 0 }]).agg
        = some a' ∧ a'.badDealer = true) ∧
    DealCertified ((vrun cexCP
      { longterm := 3, pub := 3, dealer := 7, index := 0, verifiers := [3, 4],
        agg := some (verifyJustification cexCP cexAgg cexJust).1 }
      [VssOp.procResp
        { sessionID := 1, index := 1, approved := true, signature := 0 }]).agg)
      = false := by
  have h := C5_badDealer_latch cexCP
    { longterm := 3, pub := 3, dealer := 7, index := 0, verifiers := [3, 4],
      agg := some cexAgg }
    cexAgg cexJust
    { sessionID := 1, index := 0, approved := false, signature := 0 }
    rfl (by decide) (by decide) (by decide) (by decide)
  exact ⟨h.1, h.2 [VssOp.procResp
      { sessionID := 1, index := 1, approved := true, signature := 0 }]⟩

/-- Witness for C7 at a concrete duplicate response. -/
theorem C7_duplicate_witness :
    ((addResponse cexAgg
        { sessionID := 1, index := 0, approved := true, signature := 5 }).2.isSome = true ∧
      (addResponse cexAgg
        { sessionID := 1, index := 0, approved := true, signature := 5 }).1 = cexAgg) ∧
    ((verifyResponse cexCP cexAgg
        { sessionID := 1, index := 0, approved := true, signature := 5 }).2.isSome = true ∧
      (verifyResponse cexCP cexAgg
        { sessionID := 1, index := 0, approved := true, signature := 5 }).1 = cexAgg) :=
  C7_duplicate_response cexCP cexAgg
    { sessionID := 1, index := 0, approved := true, signature := 5 } (by decide)

/-- Witness for C8 at a concrete aggregator and justification. -/
theorem C8_justification_witness :
    (∀ r, findResp cexAgg.responses cexJustGood.index = some r → r.approved = false →
      (findPub cexAgg.verifiers cexJustGood.index).isSome = true →
      (VerifyDeal cexCP cexAgg cexJustGood.deal false).2 = none →
      (verifyJustification cexCP cexAgg cexJustGood).2 = none ∧
        findResp ((verifyJustification cexCP cexAgg cexJustGood).1).responses
            cexJustGood.index
          = some { r with approved := true }) ∧
    (findResp cexAgg.responses cexJustGood.index = none →
      (verifyJustification cexCP cexAgg cexJustGood).2.isSome = true ∧
        (verifyJustification cexCP cexAgg cexJustGood).1 = cexAgg) ∧
    (∀ r, findResp cexAgg.responses cexJustGood.index = some r → r.approved = true →
      (verifyJustification cexCP cexAgg cexJustGood).2.isSome = true ∧
        (verifyJustification cexCP cexAgg cexJustGood).1 = cexAgg) :=
  C8_justification cexCP cexAgg cexJustGood

/-- Witness for C10: a fresh verifier with no aggregator. -/
theorem C10_dealCertified_witness : cexVerifier.DealCertified = false :=
  C10_dealCertified_nil cexVerifier rfl

end DedisCrypto
